import Mathlib

/-!
Verification of the dependency-group subsystem of `huak`
(`src/huak/ops/export.rs`, `src/huak/ops/update.rs`, `src/huak/ops/lint.rs`).

The Rust code is shallowly embedded: dependencies and requirements are
records of strings, `IndexMap` is an association list with in-place value
replacement on key collision, `HashSet`s are lists deduplicated in first
occurrence order (the set's iteration order is unspecified in Rust, so all
set-shaped statements below are phrased through membership, never through a
particular order), and the file system is an explicit record threaded
through the export operation.
-/

namespace Huak

instance {ε α : Type} [DecidableEq ε] [DecidableEq α] :
    DecidableEq (Except ε α)
  | .error e, .error f =>
    if h : e = f then .isTrue (by rw [h]) else .isFalse (by simp [h])
  | .error _, .ok _ => .isFalse (by simp)
  | .ok _, .error _ => .isFalse (by simp)
  | .ok a, .ok b =>
    if h : a = b then .isTrue (by rw [h]) else .isFalse (by simp [h])

/-- Splitting a character list at every occurrence of `c`; the accumulator
holds the current piece reversed. -/
def splitOnCharAux (c : Char) : List Char → List Char → List String
  | [], cur => [String.mk cur.reverse]
  | d :: rest, cur =>
    if d = c then String.mk cur.reverse :: splitOnCharAux c rest []
    else splitOnCharAux c rest (d :: cur)

/-- Rust's `str::split(c)`: splitting on every occurrence of the character,
keeping empty pieces (the empty string splits to one empty piece). -/
def splitOnChar (c : Char) (s : String) : List String :=
  splitOnCharAux c s.data []

/-- Rust's `str::starts_with('/')`. -/
def startsWithSlash (s : String) : Bool :=
  match s.data with
  | '/' :: _ => true
  | _ => false

/-- Joining path components with `/` (inverse of splitting on `/`). -/
def joinWithSlash : List String → String
  | [] => ""
  | [x] => x
  | x :: xs => x ++ "/" ++ joinWithSlash xs

/-- A dependency: a package name plus its requirement/version-constraint
string, carried verbatim.  `pep508_rs::Requirement` and
`huak::dependency::Dependency` are interconverted by the code with the name
and requirement preserved, so both are embedded as this one record and the
`Dependency::from` conversions become the identity. -/
structure Dependency where
  name : String
  spec : String
deriving DecidableEq, Repr

/-- An installed package as reported by the Python environment: name and
resolved version. -/
structure Package where
  name : String
  version : String
deriving DecidableEq, Repr

/-- Modelled from the spec: `Dependency::from_str(&pkg.to_string())` turns an
installed package into a dependency whose requirement is the installed
version's exact pin. -/
def Package.pin (p : Package) : Dependency :=
  ⟨p.name, "==" ++ p.version⟩

/-- The error kinds of `huak::Error` that this subsystem can produce.
`DependencyGroupConflict` carries the conflicting names (the code joins them
with ", " into one string; the payload set is what the statements use). -/
inductive Error where
  | ProjectDependenciesNotFound
  | DependencyGroupNotFound (name : String)
  | DependencyGroupConflict (names : List String)
  | OutputFilePathDoesNotExist (path : String)
  | IOError
deriving DecidableEq, Repr

/-- The `ExportOptions` record of `export.rs` (`include`, `exclude`, `output_file`). -/
structure ExportOptions where
  includeOpt : Option String
  excludeOpt : Option String
  outputFile : String
deriving DecidableEq, Repr

/-- The slice of the local metadata that the export operation reads:
`metadata().dependencies()` and `metadata().optional_dependencies()`.  Both
are optional structures, mirroring the `Option` returns in the code. -/
structure ExportMetadata where
  dependencies : Option (List Dependency)
  optionalDependencies : Option (List (String × List Dependency))
deriving DecidableEq, Repr

/-- A tiny file system: the set of existing directories and the files with
their contents.  Only what the export path validation and `File::create`
touch. -/
structure FS where
  dirs : List String
  files : List (String × String)
deriving DecidableEq, Repr

/-- Splitting of `options.include`/`options.exclude` (lines 49-53 of `export.rs`):
`None` becomes the empty list, `Some s` is split on commas. -/
def splitGroups : Option String → List String
  | none => []
  | some s => splitOnChar ',' s

/-- First-occurrence-order deduplication; the embedding of building a
`HashSet` from a list, keeping a canonical iteration order. -/
def dedupKeep (l : List String) : List String :=
  l.foldl (fun acc s => if acc.contains s then acc else acc ++ [s]) []

/-- The include set of `process_dependencies`: the include list as a set
with `"required"` unconditionally inserted (line 83 of `export.rs`). -/
def includeSetOf (inc : List String) : List String :=
  dedupKeep (inc ++ ["required"])

/-- Union of two set-shaped lists. -/
def unionList (a b : List String) : List String :=
  dedupKeep (a ++ b)

/-- The `IndexMap::insert` behaviour: replace the value in place if the key is present
(keeping its position), otherwise append the pair at the end. -/
def imInsert (A : List (String × List Dependency)) (k : String)
    (v : List Dependency) : List (String × List Dependency) :=
  if A.any (fun e => e.1 == k) then
    A.map (fun e => if e.1 == k then (k, v) else e)
  else
    A ++ [(k, v)]

/-- Lines 86-92 of `export.rs`: the combined `IndexMap` holding one
singleton group per required dependency, keyed by the dependency's own
name, extended with the optional groups. -/
def buildAllDependencies (deps : List Dependency)
    (opt : Option (List (String × List Dependency))) :
    List (String × List Dependency) :=
  let base := deps.foldl (fun acc d => imInsert acc d.name [d]) []
  match opt with
  | some od => od.foldl (fun acc e => imInsert acc e.1 e.2) base
  | none => base

/-- The key set of the combined map. -/
def allGroupKeys (deps : List Dependency)
    (opt : Option (List (String × List Dependency))) : List String :=
  (buildAllDependencies deps opt).map Prod.fst

/-- The loop at lines 96-103 of `export.rs`: scan the union of the include
and exclude sets for a name that is not `"required"` and is not a key of
the combined map. -/
def findUnknown (names : List String) (known : List String) : Option String :=
  names.find? (fun g => !(g == "required") && !(known.contains g))

/-- Line 106 of `export.rs`: the intersection of the include set (with
`"required"` inserted) and the exclude set. -/
def conflictsOf (inc exc : List String) : List String :=
  (includeSetOf inc).filter (fun g => (dedupKeep exc).contains g)

/-- The per-group decision of the `filter_map` at lines 111-127 of
`export.rs`, on the raw include/exclude slices. -/
def emitGroup (inc exc : List String) (e : String × List Dependency) :
    List Dependency :=
  if inc.isEmpty && exc.contains e.1 then []
  else if (exc.isEmpty && inc.contains e.1)
      || (inc.contains e.1 && !(exc.contains e.1)) then e.2
  else if inc.isEmpty && exc.isEmpty then e.2
  else []

/-- The `process_dependencies` function of `export.rs`: unknown-name validation, then
the include/exclude conflict check, then the group filter. -/
def processDependencies (inc exc : List String) (deps : List Dependency)
    (opt : Option (List (String × List Dependency))) :
    Except Error (List Dependency) :=
  let includeSet := includeSetOf inc
  let excludeSet := dedupKeep exc
  let allDeps := buildAllDependencies deps opt
  match findUnknown (unionList includeSet excludeSet) (allDeps.map Prod.fst) with
  | some g => .error (.DependencyGroupNotFound g)
  | none =>
    let conflicts := includeSet.filter (fun g => excludeSet.contains g)
    if conflicts.isEmpty then
      .ok (allDeps.foldl (fun acc e => acc ++ emitGroup inc exc e) [])
    else
      .error (.DependencyGroupConflict conflicts)

/-- Lines 23-29 of `export.rs`: an output file path starting with `/` is
used verbatim, otherwise it is joined under the workspace root. -/
def resolveOutputPath (root outputFile : String) : String :=
  if startsWithSlash outputFile then outputFile else root ++ "/" ++ outputFile

/-- Rust `Path::parent` for slash-separated paths (without trailing slashes):
everything before the last `/`; `"/a"` has parent `"/"`, a bare file name
has parent `""`, and `""`/`"/"` have none. -/
def parentDir (p : String) : Option String :=
  if p = "" || p = "/" then none
  else
    let s := joinWithSlash (splitOnChar '/' p).dropLast
    some (if s = "" && startsWithSlash p then "/" else s)

/-- The `parent_dir.exists()` check against the modelled file system. -/
def dirExists (fs : FS) (p : String) : Bool :=
  fs.dirs.contains p

/-- Rust `File::create` followed by writing the full content: replace the file's
content if the path exists, otherwise create it. -/
def fsWrite (fs : FS) (path content : String) : FS :=
  { fs with files :=
      if fs.files.any (fun e => e.1 == path) then
        fs.files.map (fun e => if e.1 == path then (path, content) else e)
      else
        fs.files ++ [(path, content)] }

/-- Lines 69-72 of `export.rs`: one line per dependency. -/
def renderDeps (l : List Dependency) : String :=
  String.join (l.map (fun d => d.name ++ d.spec ++ "\n"))

/-- The body of `export_dependencies_to_file` after the output-path
validation: the dependencies-present check, the `"required"` front-list,
`process_dependencies`, then `File::create` and the writes. -/
def exportBody (fs : FS) (path : String) (md : ExportMetadata)
    (opts : ExportOptions) : Except Error Unit × FS :=
  if md.dependencies.isNone || md.optionalDependencies.isNone then
    (.error .ProjectDependenciesNotFound, fs)
  else
    let deps := md.dependencies.getD []
    let inc := splitGroups opts.includeOpt
    let exc := splitGroups opts.excludeOpt
    let front :=
      if inc.contains "required" && !(exc.contains "required") then deps
      else []
    match processDependencies inc exc deps md.optionalDependencies with
    | .error e => (.error e, fs)
    | .ok processed => (.ok (), fsWrite fs path (renderDeps (front ++ processed)))

/-- The `export_dependencies_to_file` operation of `export.rs`: resolve the output
path, validate its parent directory, then run the body.  The returned file
system is unchanged on every error. -/
def exportDependenciesToFile (fs : FS) (root : String) (md : ExportMetadata)
    (opts : ExportOptions) : Except Error Unit × FS :=
  let path := resolveOutputPath root opts.outputFile
  match parentDir path with
  | some pd =>
    if dirExists fs pd then exportBody fs path md opts
    else (.error (.OutputFilePathDoesNotExist pd), fs)
  | none => exportBody fs path md opts

example :
    processDependencies [] [] [⟨"a", "==1"⟩]
      (some [("dev", [⟨"b", "==2"⟩])]) = .ok [⟨"a", "==1"⟩, ⟨"b", "==2"⟩] := by
  decide

example :
    processDependencies [] ["dev"] []
      (some [("dev", [⟨"b", "==1"⟩]), ("docs", [⟨"d", "==1"⟩])]) = .ok [] := by
  decide

example :
    processDependencies ["dev", "bogus"] ["dev"] [⟨"a", "==1"⟩]
      (some [("dev", [⟨"b", "==1"⟩])]) =
      .error (.DependencyGroupNotFound "bogus") := by
  decide

example :
    processDependencies [] ["required", "bogus"] [⟨"a", "==1"⟩]
      (some [("dev", [⟨"b", "==1"⟩])]) =
      .error (.DependencyGroupNotFound "bogus") := by
  decide

example :
    processDependencies ["a"] [] [⟨"a", "==1"⟩]
      (some [("dev", [⟨"b", "==1"⟩])]) = .ok [⟨"a", "==1"⟩] := by
  decide

example :
    processDependencies [] [] [⟨"dev", "==1"⟩]
      (some [("dev", [⟨"b", "==2"⟩])]) = .ok [⟨"b", "==2"⟩] := by
  decide

example :
    processDependencies ["dev"] ["dev"] []
      (some [("dev", [⟨"b", "==1"⟩])]) =
      .error (.DependencyGroupConflict ["dev"]) := by
  decide

/-! ## The manifest and its accessors (update.rs / lint.rs)

The project metadata type and its dependency accessors/mutators live in the
repository outside the provided sources; only their callers are visible.
They are modelled from the spec below. -/

/-- The manifest: an ordered required-dependency list and an ordered mapping
from optional group name to ordered dependency list (an `IndexMap`, so
group names are unique). -/
structure Metadata where
  required : List Dependency
  optional : List (String × List Dependency)
deriving DecidableEq, Repr

/-- Modelled from the spec: `Metadata::contains_dependency` — matching
across operations is by name only. -/
def containsDependency (m : Metadata) (d : Dependency) : Bool :=
  m.required.any (fun x => x.name == d.name)

/-- Modelled from the spec: `Metadata::remove_dependency` removes the
required-list entry (entries, if duplicated) declaring that name. -/
def removeDependency (m : Metadata) (d : Dependency) : Metadata :=
  { m with required := m.required.filter (fun x => !(x.name == d.name)) }

/-- Modelled from the spec: `Metadata::add_dependency` appends a new entry
at the end of the required list. -/
def addDependency (m : Metadata) (d : Dependency) : Metadata :=
  { m with required := m.required ++ [d] }

/-- Modelled from the spec: `Metadata::contains_optional_dependency` — does
group `g` declare a dependency of that name. -/
def containsOptionalDependency (m : Metadata) (d : Dependency) (g : String) :
    Bool :=
  match m.optional.find? (fun e => e.1 == g) with
  | some e => e.2.any (fun x => x.name == d.name)
  | none => false

/-- Modelled from the spec: `Metadata::remove_optional_dependency` removes
the entry of that name from group `g`. -/
def removeOptionalDependency (m : Metadata) (d : Dependency) (g : String) :
    Metadata :=
  { m with optional := m.optional.map (fun e =>
      if e.1 == g then (e.1, e.2.filter (fun x => !(x.name == d.name))) else e) }

/-- Modelled from the spec: `Metadata::add_optional_dependency` appends the
entry at the end of group `g`, creating the group if it is not declared. -/
def addOptionalDependency (m : Metadata) (d : Dependency) (g : String) :
    Metadata :=
  if m.optional.any (fun e => e.1 == g) then
    { m with optional := m.optional.map (fun e =>
        if e.1 == g then (e.1, e.2 ++ [d]) else e) }
  else
    { m with optional := m.optional ++ [(g, [d])] }

/-- Modelled from the spec: `Metadata::contains_dependency_any` — declared
under the required list or under any optional group. -/
def containsDependencyAny (m : Metadata) (d : Dependency) : Bool :=
  containsDependency m d
    || m.optional.any (fun e => e.2.any (fun x => x.name == d.name))

/-! ## update.rs: the installed-state reconciliation loop -/

/-- The body of the inner `for g in groups` loop of
`update_project_dependencies`, for one group name. -/
def groupStep (d : Dependency) (acc : Metadata) (g : String) : Metadata :=
  if containsOptionalDependency acc d g then
    addOptionalDependency (removeOptionalDependency acc d g) d g
  else acc

/-- The body of the `for pkg in python_env.installed_packages()?` loop of
`update_project_dependencies` (lines 67-81 of `update.rs`): replace the
required-list entry of the installed package's name, then do the same in
every group of `groups`. -/
def updatePkgStep (groups : List String) (m : Metadata) (p : Package) :
    Metadata :=
  let d := p.pin
  let m1 :=
    if containsDependency m d then addDependency (removeDependency m d) d
    else m
  groups.foldl (groupStep d) m1

/-- The reconciliation phase of `update_project_dependencies`: `groups` is
collected from the metadata once, then every installed package is folded
through `updatePkgStep`. -/
def updateReconcile (m : Metadata) (ps : List Package) : Metadata :=
  ps.foldl (updatePkgStep (m.optional.map Prod.fst)) m

/-- Lines 83-86 of `update.rs`: the possibly-updated metadata is written
back only when it differs by value from the originally loaded one. -/
def updateWrites (m : Metadata) (ps : List Package) : Bool :=
  decide (updateReconcile m ps ≠ m)

/-! ## lint.rs: recording the helper tools as dev dependencies -/

/-- The `ruff` helper as parsed by `Dependency::from_str("ruff")`: no version pin. -/
def ruffDep : Dependency := ⟨"ruff", ""⟩

/-- The `mypy` helper as parsed by `Dependency::from_str("mypy")`. -/
def mypyDep : Dependency := ⟨"mypy", ""⟩

/-- The `lint_deps` list of `lint_project`: always `ruff`, plus `mypy` when type
checking was requested. -/
def lintHelperDeps (includeTypes : Bool) : List Dependency :=
  [ruffDep] ++ (if includeTypes then [mypyDep] else [])

/-- Lines 70-93 of `lint.rs`: the helper packages not declared under any
group are looked up among the installed packages and appended under the
`"dev"` group with their installed pins. -/
def lintUpdateMetadata (m : Metadata) (includeTypes : Bool)
    (installed : List Package) : Metadata :=
  let newNames := ((lintHelperDeps includeTypes).filter
      (fun d => !(containsDependencyAny m d))).map Dependency.name
  if newNames.isEmpty then m
  else
    (installed.filter (fun p => newNames.contains p.name)).foldl
      (fun acc p => addOptionalDependency acc p.pin "dev") m

/-- Lines 95-97 of `lint.rs`: the same compare-then-write rule. -/
def lintWrites (m : Metadata) (includeTypes : Bool)
    (installed : List Package) : Bool :=
  decide (lintUpdateMetadata m includeTypes installed ≠ m)

/-- The `"dev"` group of a manifest (empty when not declared). -/
def devGroup (m : Metadata) : List Dependency :=
  match m.optional.find? (fun e => e.1 == "dev") with
  | some e => e.2
  | none => []

example :
    updateReconcile ⟨[⟨"a", "==1.0"⟩], [("dev", [⟨"b", "==1.0"⟩])]⟩
        [⟨"a", "2.0"⟩] =
      ⟨[⟨"a", "==2.0"⟩], [("dev", [⟨"b", "==1.0"⟩])]⟩ := by
  decide

example :
    updateReconcile ⟨[⟨"x", "==1"⟩, ⟨"a", "==1.0"⟩], [("dev", [⟨"a", ">=1"⟩])]⟩
        [⟨"a", "2.0"⟩] =
      ⟨[⟨"x", "==1"⟩, ⟨"a", "==2.0"⟩], [("dev", [⟨"a", "==2.0"⟩])]⟩ := by
  decide

example :
    updateWrites ⟨[⟨"a", "==2.0"⟩], []⟩ [⟨"a", "2.0"⟩] = false := by
  decide

example :
    lintUpdateMetadata ⟨[], []⟩ false [⟨"ruff", "0.1"⟩] =
      ⟨[], [("dev", [⟨"ruff", "==0.1"⟩])]⟩ := by
  decide

example :
    lintUpdateMetadata ⟨[⟨"ruff", "==0.1"⟩], []⟩ false [⟨"ruff", "0.1"⟩] =
      ⟨[⟨"ruff", "==0.1"⟩], []⟩ := by
  decide

/-! ## Helper lemmas: string sets -/

theorem contains_iff_mem {l : List String} {a : String} :
    l.contains a = true ↔ a ∈ l := by
  simp [List.contains_eq_any_beq, List.any_eq_true, eq_comm]

theorem contains_eq_false_iff {l : List String} {a : String} :
    l.contains a = false ↔ a ∉ l := by
  rw [← Bool.not_eq_true, not_iff_not, contains_iff_mem]

theorem mem_dedupKeep_foldl {l acc : List String} {a : String} :
    a ∈ l.foldl (fun acc s => if acc.contains s then acc else acc ++ [s]) acc ↔
      a ∈ acc ∨ a ∈ l := by
  induction l generalizing acc with
  | nil => simp
  | cons s rest ih =>
    simp only [List.foldl_cons]
    by_cases hs : acc.contains s = true
    · rw [if_pos hs, ih]
      have : s ∈ acc := contains_iff_mem.mp hs
      constructor
      · rintro (h | h)
        · exact Or.inl h
        · exact Or.inr (List.mem_cons_of_mem _ h)
      · rintro (h | h)
        · exact Or.inl h
        · rcases List.mem_cons.mp h with h | h
          · exact Or.inl (h ▸ this)
          · exact Or.inr h
    · rw [if_neg hs, ih]
      simp [List.mem_append, List.mem_cons, or_assoc, or_comm (a := a = s)]

theorem mem_dedupKeep {l : List String} {a : String} :
    a ∈ dedupKeep l ↔ a ∈ l := by
  unfold dedupKeep
  rw [mem_dedupKeep_foldl]
  simp

theorem mem_includeSetOf {inc : List String} {a : String} :
    a ∈ includeSetOf inc ↔ a ∈ inc ∨ a = "required" := by
  unfold includeSetOf
  rw [mem_dedupKeep]
  simp

theorem mem_unionList {a : String} {x y : List String} :
    a ∈ unionList x y ↔ a ∈ x ∨ a ∈ y := by
  unfold unionList
  rw [mem_dedupKeep]
  simp

/-! ## Helper lemmas: the combined IndexMap and its keys -/

theorem keys_map_key_preserving {A : List (String × List Dependency)}
    {k : String} {v : List Dependency} :
    (A.map (fun e => if e.1 == k then (k, v) else e)).map Prod.fst =
      A.map Prod.fst := by
  rw [List.map_map]
  apply List.map_congr_left
  intro e _
  by_cases h : e.1 = k
  · simp [h]
  · simp [h]

theorem imInsert_of_not_mem {A : List (String × List Dependency)}
    {k : String} {v : List Dependency} (h : k ∉ A.map Prod.fst) :
    imInsert A k v = A ++ [(k, v)] := by
  unfold imInsert
  rw [if_neg]
  intro hany
  rcases List.any_eq_true.mp hany with ⟨e, he, hk⟩
  exact h (List.mem_map.mpr ⟨e, he, (beq_iff_eq.mp hk)⟩)

theorem mem_keys_imInsert {A : List (String × List Dependency)}
    {k g : String} {v : List Dependency} :
    g ∈ (imInsert A k v).map Prod.fst ↔ g ∈ A.map Prod.fst ∨ g = k := by
  unfold imInsert
  by_cases h : A.any (fun e => e.1 == k) = true
  · rw [if_pos h, keys_map_key_preserving]
    rcases List.any_eq_true.mp h with ⟨e, he, hk⟩
    constructor
    · exact Or.inl
    · rintro (hg | rfl)
      · exact hg
      · exact List.mem_map.mpr ⟨e, he, (beq_iff_eq.mp hk)⟩
  · rw [if_neg h]
    simp

theorem mem_keys_foldl_imInsert {es A : List (String × List Dependency)}
    {g : String} :
    g ∈ (es.foldl (fun acc e => imInsert acc e.1 e.2) A).map Prod.fst ↔
      g ∈ A.map Prod.fst ∨ g ∈ es.map Prod.fst := by
  induction es generalizing A with
  | nil => simp
  | cons e rest ih =>
    simp only [List.foldl_cons]
    rw [ih, mem_keys_imInsert]
    simp [or_assoc, or_comm (a := g = e.1)]

theorem mem_allGroupKeys {deps : List Dependency}
    {opt : Option (List (String × List Dependency))} {g : String} :
    g ∈ allGroupKeys deps opt ↔
      g ∈ deps.map Dependency.name ∨
        g ∈ (opt.getD []).map Prod.fst := by
  unfold allGroupKeys buildAllDependencies
  have hbase : ∀ A : List (String × List Dependency),
      g ∈ (deps.foldl (fun acc d => imInsert acc d.name [d]) A).map Prod.fst ↔
        g ∈ A.map Prod.fst ∨ g ∈ deps.map Dependency.name := by
    intro A
    rw [show (deps.foldl (fun acc d => imInsert acc d.name [d]) A) =
        ((deps.map (fun d => (d.name, [d]))).foldl
          (fun acc e => imInsert acc e.1 e.2) A) by rw [List.foldl_map],
      mem_keys_foldl_imInsert, List.map_map]
    simp [Function.comp]
  cases opt with
  | none => simpa using hbase []
  | some og =>
    simp only [Option.getD_some]
    rw [mem_keys_foldl_imInsert, hbase]
    simp

/-! ## Helper lemmas: the unknown-name scan -/

theorem findUnknown_eq_none {names known : List String}
    (h : ∀ g ∈ names, g = "required" ∨ g ∈ known) :
    findUnknown names known = none := by
  unfold findUnknown
  rw [List.find?_eq_none]
  intro g hg
  rcases h g hg with rfl | hk
  · simp
  · simp only [Bool.and_eq_true, Bool.not_eq_true', not_and]
    intro _
    simp only [Bool.not_eq_false, contains_iff_mem]
    exact hk

theorem findUnknown_finds {names known : List String} {g : String}
    (hg : g ∈ names) (hreq : g ≠ "required") (hk : g ∉ known) :
    ∃ n, findUnknown names known = some n ∧ n ∈ names ∧
      n ≠ "required" ∧ n ∉ known := by
  have hsome : (findUnknown names known).isSome = true := by
    unfold findUnknown
    rw [List.find?_isSome]
    refine ⟨g, hg, ?_⟩
    simp only [Bool.and_eq_true, Bool.not_eq_true']
    exact ⟨by simpa using hreq, contains_eq_false_iff.mpr hk⟩
  rcases Option.isSome_iff_exists.mp hsome with ⟨n, hn⟩
  have hmem := List.mem_of_find?_eq_some hn
  have hp := List.find?_some hn
  simp only [Bool.and_eq_true, Bool.not_eq_true'] at hp
  exact ⟨n, hn, hmem, by simpa using hp.1, contains_eq_false_iff.mp hp.2⟩

/-! ## Helper lemmas: the group-filter fold -/

theorem foldl_append_pullout {α β : Type} (f : α → List β) (l : List α)
    (acc : List β) :
    l.foldl (fun a e => a ++ f e) acc = acc ++ l.foldl (fun a e => a ++ f e) [] := by
  induction l generalizing acc with
  | nil => simp
  | cons e rest ih =>
    simp only [List.foldl_cons]
    rw [ih, ih ([] ++ f e)]
    simp

theorem foldl_append_singleton {α : Type} (l acc : List α) :
    l.foldl (fun a e => a ++ [e]) acc = acc ++ l := by
  induction l generalizing acc with
  | nil => simp
  | cons e rest ih =>
    simp only [List.foldl_cons]
    rw [ih]
    simp

/-- The concatenation of the groups' dependency lists, in group order. -/
def flattenGroups (og : List (String × List Dependency)) : List Dependency :=
  og.foldl (fun acc e => acc ++ e.2) []

/-! ## Helper lemmas: structure of the combined map under distinct names -/

theorem foldl_imInsert_of_disjoint {es A : List (String × List Dependency)}
    (h1 : (es.map Prod.fst).Nodup)
    (h2 : ∀ e ∈ es, e.1 ∉ A.map Prod.fst) :
    es.foldl (fun acc e => imInsert acc e.1 e.2) A = A ++ es := by
  induction es generalizing A with
  | nil => simp
  | cons e rest ih =>
    simp only [List.foldl_cons]
    have hins : imInsert A e.1 e.2 = A ++ [e] := by
      rw [imInsert_of_not_mem (h2 e (List.mem_cons_self e rest))]
    rw [hins, ih (List.Nodup.of_cons h1)]
    · simp
    · intro r hr
      rw [List.map_append]
      simp only [List.mem_append]
      rintro (hA | he)
      · exact h2 r (List.mem_cons_of_mem e hr) hA
      · simp only [List.map_cons, List.map_nil, List.mem_singleton] at he
        have h1' : (e.1 :: rest.map Prod.fst).Nodup := by simpa using h1
        exact (List.nodup_cons.mp h1').1
          (he ▸ List.mem_map.mpr ⟨r, hr, rfl⟩)

theorem buildAllDependencies_eq {deps : List Dependency}
    {og : List (String × List Dependency)}
    (hd : (deps.map Dependency.name).Nodup)
    (hog : (og.map Prod.fst).Nodup)
    (hdisj : ∀ e ∈ og, e.1 ∉ deps.map Dependency.name) :
    buildAllDependencies deps (some og) =
      deps.map (fun d => (d.name, [d])) ++ og := by
  unfold buildAllDependencies
  have hbase : deps.foldl (fun acc d => imInsert acc d.name [d]) [] =
      deps.map (fun d => (d.name, [d])) := by
    rw [show (deps.foldl (fun acc d => imInsert acc d.name [d]) []) =
        ((deps.map (fun d => (d.name, [d]))).foldl
          (fun acc e => imInsert acc e.1 e.2) []) by rw [List.foldl_map]]
    rw [foldl_imInsert_of_disjoint]
    · simp
    · rw [List.map_map]
      simpa [Function.comp] using hd
    · simp
  simp only [hbase]
  rw [foldl_imInsert_of_disjoint hog]
  intro e he
  rw [List.map_map]
  simpa [Function.comp] using hdisj e he

/-! ## Helper lemmas: characterizing process_dependencies -/

theorem mem_conflictsOf {g : String} {inc exc : List String} :
    g ∈ conflictsOf inc exc ↔ (g ∈ inc ∨ g = "required") ∧ g ∈ exc := by
  unfold conflictsOf
  rw [List.mem_filter, mem_includeSetOf]
  constructor
  · rintro ⟨h1, h2⟩
    exact ⟨h1, mem_dedupKeep.mp (contains_iff_mem.mp h2)⟩
  · rintro ⟨h1, h2⟩
    exact ⟨h1, contains_iff_mem.mpr (mem_dedupKeep.mpr h2)⟩

theorem processDependencies_no_unknown {inc exc : List String}
    {deps : List Dependency} {opt : Option (List (String × List Dependency))}
    (hknown : ∀ g, (g ∈ inc ∨ g ∈ exc) →
      g = "required" ∨ g ∈ allGroupKeys deps opt) :
    findUnknown (unionList (includeSetOf inc) (dedupKeep exc))
      ((buildAllDependencies deps opt).map Prod.fst) = none := by
  apply findUnknown_eq_none
  intro g hg
  rcases mem_unionList.mp hg with h | h
  · rcases mem_includeSetOf.mp h with h | rfl
    · exact hknown g (Or.inl h)
    · exact Or.inl rfl
  · exact hknown g (Or.inr (mem_dedupKeep.mp h))

theorem processDependencies_ok {inc exc : List String}
    {deps : List Dependency} {opt : Option (List (String × List Dependency))}
    (hknown : ∀ g, (g ∈ inc ∨ g ∈ exc) →
      g = "required" ∨ g ∈ allGroupKeys deps opt)
    (hreq : "required" ∉ exc) (hnoconf : ∀ g ∈ inc, g ∉ exc) :
    processDependencies inc exc deps opt =
      .ok ((buildAllDependencies deps opt).foldl
        (fun acc e => acc ++ emitGroup inc exc e) []) := by
  simp only [processDependencies]
  rw [processDependencies_no_unknown hknown]
  have hemp : ∀ g ∈ includeSetOf inc, g ∉ dedupKeep exc := by
    intro g hg
    rw [mem_dedupKeep]
    rcases mem_includeSetOf.mp hg with h | rfl
    · exact hnoconf g h
    · exact hreq
  have hempty : (includeSetOf inc).filter
      (fun g => (dedupKeep exc).contains g) = [] := by
    rw [List.filter_eq_nil_iff]
    intro g hg
    simp only [Bool.not_eq_true]
    exact contains_eq_false_iff.mpr (hemp g hg)
  rw [hempty]
  rfl

theorem processDependencies_unknown {inc exc : List String}
    {deps : List Dependency} {opt : Option (List (String × List Dependency))}
    {g : String} (hg : g ∈ inc ∨ g ∈ exc) (hreq : g ≠ "required")
    (hnk : g ∉ allGroupKeys deps opt) :
    ∃ n, (n ∈ inc ∨ n ∈ exc) ∧ n ≠ "required" ∧ n ∉ allGroupKeys deps opt ∧
      processDependencies inc exc deps opt =
        .error (.DependencyGroupNotFound n) := by
  have hmem : g ∈ unionList (includeSetOf inc) (dedupKeep exc) := by
    rw [mem_unionList]
    rcases hg with h | h
    · exact Or.inl (mem_includeSetOf.mpr (Or.inl h))
    · exact Or.inr (mem_dedupKeep.mpr h)
  rcases findUnknown_finds hmem hreq hnk with ⟨n, hn, hmemn, hreqn, hnkn⟩
  refine ⟨n, ?_, hreqn, hnkn, ?_⟩
  · rcases mem_unionList.mp hmemn with h | h
    · rcases mem_includeSetOf.mp h with h | rfl
      · exact Or.inl h
      · exact absurd rfl hreqn
    · exact Or.inr (mem_dedupKeep.mp h)
  · simp only [processDependencies]
    rw [show (buildAllDependencies deps opt).map Prod.fst =
      allGroupKeys deps opt from rfl, hn]

theorem processDependencies_conflict {inc exc : List String}
    {deps : List Dependency} {opt : Option (List (String × List Dependency))}
    {c : String}
    (hknown : ∀ g, (g ∈ inc ∨ g ∈ exc) →
      g = "required" ∨ g ∈ allGroupKeys deps opt)
    (hconf : c ∈ conflictsOf inc exc) :
    processDependencies inc exc deps opt =
      .error (.DependencyGroupConflict (conflictsOf inc exc)) := by
  simp only [processDependencies]
  rw [processDependencies_no_unknown hknown]
  have hne : (includeSetOf inc).filter
      (fun g => (dedupKeep exc).contains g) ≠ [] := by
    intro h
    rw [show ((includeSetOf inc).filter (fun g => (dedupKeep exc).contains g))
        = conflictsOf inc exc from rfl] at h
    rw [h] at hconf
    exact List.not_mem_nil c hconf
  simp only [List.isEmpty_eq_false.mpr hne]
  rfl

/-- Is the result a `DependencyGroupConflict` error? -/
def isConflictError : Except Error (List Dependency) → Bool
  | .error (.DependencyGroupConflict _) => true
  | _ => false

/-! ## Claims about the export operation -/

/-- C1 (amended): for every manifest whose required-dependency names are
pairwise distinct and disjoint from the (unique) optional group names, the
export with an empty filter request (no include and no exclude) emits every
dependency of the required list and of every optional group, required list
first in order, then each group in declaration order.  (Without the
distinctness conditions, the combined map keyed by required-dependency
names merges colliding entries; see the counterexample.) -/
theorem C1_export_empty_filter_all (fs : FS) (root outputFile : String)
    (deps : List Dependency) (og : List (String × List Dependency))
    (pd : String)
    (hp : parentDir (resolveOutputPath root outputFile) = some pd)
    (hdir : dirExists fs pd = true)
    (hd : (deps.map Dependency.name).Nodup)
    (hog : (og.map Prod.fst).Nodup)
    (hdisj : ∀ e ∈ og, e.1 ∉ deps.map Dependency.name) :
    exportDependenciesToFile fs root ⟨some deps, some og⟩
        ⟨none, none, outputFile⟩ =
      (.ok (), fsWrite fs (resolveOutputPath root outputFile)
        (renderDeps (deps ++ flattenGroups og))) := by
  simp only [exportDependenciesToFile, hp, hdir, if_true]
  simp only [exportBody, Option.isNone_some, Bool.or_self, Bool.false_eq_true,
    if_false, Option.getD_some, splitGroups]
  have hproc : processDependencies [] [] deps (some og) =
      .ok ((buildAllDependencies deps (some og)).foldl
        (fun acc e => acc ++ emitGroup [] [] e) []) := by
    apply processDependencies_ok
    · rintro g (h | h) <;> simp at h
    · simp
    · intro g h
      simp at h
  rw [hproc]
  have hemit : ∀ e : String × List Dependency, emitGroup [] [] e = e.2 := by
    intro e
    rfl
  simp only [hemit, buildAllDependencies_eq hd hog hdisj, List.foldl_append,
    List.foldl_map]
  rw [foldl_append_singleton, foldl_append_pullout]
  simp [flattenGroups]

theorem C1_export_empty_filter_all_witness :
    exportDependenciesToFile ⟨["/ws"], []⟩ "/ws"
        ⟨some [⟨"a", "==1"⟩], some [("dev", [⟨"b", "==2"⟩])]⟩
        ⟨none, none, "req.txt"⟩ =
      (.ok (), fsWrite ⟨["/ws"], []⟩ (resolveOutputPath "/ws" "req.txt")
        (renderDeps ([⟨"a", "==1"⟩] ++
          flattenGroups [("dev", [⟨"b", "==2"⟩])]))) :=
  C1_export_empty_filter_all ⟨["/ws"], []⟩ "/ws" "req.txt" [⟨"a", "==1"⟩]
    [("dev", [⟨"b", "==2"⟩])] "/ws" (by decide) (by decide) (by decide)
    (by decide) (by decide)

/-- C1 counterexample: an optional group named like a required dependency.
The manifest declares required dependency `dev==1` and optional group `dev`
containing `b==2`; the export with an empty filter writes only `b==2` — the
required entry is silently overwritten inside the combined map, so the
claim's "no omissions for every manifest" is false as stated. -/
theorem C1_name_collision_counterexample :
    exportDependenciesToFile ⟨["/ws"], []⟩ "/ws"
        ⟨some [⟨"dev", "==1"⟩], some [("dev", [⟨"b", "==2"⟩])]⟩
        ⟨none, none, "req.txt"⟩ =
      (.ok (), ⟨["/ws"], [("/ws/req.txt", "b==2\n")]⟩) := by
  decide

/-- C2: the code does NOT emit the non-excluded groups when `include` is
empty and `exclude` is non-empty — it emits nothing at all.  Registry with
groups `dev` (containing `b`) and `docs` (containing `d`), include empty,
exclude `dev`: the result is the empty list, although the claim requires
`d` to be emitted.  (The filter chain's first branch would be dead code
under this behaviour, so the claim matches the evident intent and the code
is the slip.) -/
theorem C2_exclude_only_emits_nothing :
    processDependencies [] ["dev"] []
        (some [("dev", [⟨"b", "==1"⟩]), ("docs", [⟨"d", "==1"⟩])]) =
      .ok [] := by
  decide

/-- C3 (amended): provided every group name mentioned in include or exclude
(other than `"required"`) exists in the combined registry, a name occurring
in both include and exclude makes the export fail with
`DependencyGroupConflict`, whose payload contains every such conflicting
name, and the file system is left unchanged.  (Without the proviso an
unknown name is reported first, as `DependencyGroupNotFound`; see the
counterexample.) -/
theorem C3_conflict_error (fs : FS) (root outputFile : String)
    (si se : Option String) (deps : List Dependency)
    (og : List (String × List Dependency)) (pd g0 : String)
    (hp : parentDir (resolveOutputPath root outputFile) = some pd)
    (hdir : dirExists fs pd = true)
    (hknown : ∀ g ∈ splitGroups si ++ splitGroups se,
      g = "required" ∨ g ∈ allGroupKeys deps (some og))
    (hg0i : g0 ∈ splitGroups si) (hg0e : g0 ∈ splitGroups se) :
    exportDependenciesToFile fs root ⟨some deps, some og⟩
        ⟨si, se, outputFile⟩ =
      (.error (.DependencyGroupConflict
        (conflictsOf (splitGroups si) (splitGroups se))), fs) ∧
    ∀ n, n ∈ splitGroups si → n ∈ splitGroups se →
      n ∈ conflictsOf (splitGroups si) (splitGroups se) := by
  constructor
  · simp only [exportDependenciesToFile, hp, hdir, if_true]
    simp only [exportBody, Option.isNone_some, Bool.or_self,
      Bool.false_eq_true, if_false, Option.getD_some]
    have hproc : processDependencies (splitGroups si) (splitGroups se) deps
        (some og) = .error (.DependencyGroupConflict
          (conflictsOf (splitGroups si) (splitGroups se))) := by
      apply processDependencies_conflict
        (c := g0)
      · intro g hg
        exact hknown g (List.mem_append.mpr hg)
      · exact mem_conflictsOf.mpr ⟨Or.inl hg0i, hg0e⟩
    rw [hproc]
  · intro n hni hne
    exact mem_conflictsOf.mpr ⟨Or.inl hni, hne⟩

theorem C3_conflict_error_witness :
    exportDependenciesToFile ⟨["/ws"], []⟩ "/ws"
        ⟨some [⟨"a", "==1"⟩], some [("dev", [⟨"b", "==1"⟩])]⟩
        ⟨some "dev", some "dev", "req.txt"⟩ =
      (.error (.DependencyGroupConflict
        (conflictsOf (splitGroups (some "dev")) (splitGroups (some "dev")))),
        ⟨["/ws"], []⟩) ∧
    ∀ n, n ∈ splitGroups (some "dev") → n ∈ splitGroups (some "dev") →
      n ∈ conflictsOf (splitGroups (some "dev")) (splitGroups (some "dev")) :=
  C3_conflict_error ⟨["/ws"], []⟩ "/ws" "req.txt" (some "dev") (some "dev")
    [⟨"a", "==1"⟩] [("dev", [⟨"b", "==1"⟩])] "/ws" "dev" (by decide)
    (by decide) (by decide) (by decide) (by decide)

/-- C3 counterexample: the declared group `dev` is in both include and
exclude, but the request also mentions the unknown name `bogus`; the code
fails with `DependencyGroupNotFound "bogus"`, not with
`DependencyGroupConflict`, so the claim is false as stated for every such
filter request. -/
theorem C3_unknown_preempts_counterexample :
    processDependencies ["dev", "bogus"] ["dev"] [⟨"a", "==1"⟩]
        (some [("dev", [⟨"b", "==1"⟩])]) =
      .error (.DependencyGroupNotFound "bogus") ∧
    isConflictError (processDependencies ["dev", "bogus"] ["dev"]
      [⟨"a", "==1"⟩] (some [("dev", [⟨"b", "==1"⟩])])) = false := by
  constructor
  · decide
  · decide

/-- C4 (amended): every group name mentioned in include or exclude other
than `"required"` must exist among the union of the required-dependency
names and the optional group keys; a mentioned name outside that union
makes the filtering step fail with `DependencyGroupNotFound` naming some
such unknown mentioned name.  (Bare required-dependency names are accepted,
contrary to the claim as stated; see the counterexample.) -/
theorem C4_unknown_group_error (inc exc : List String)
    (deps : List Dependency) (og : List (String × List Dependency))
    (g : String) (hg : g ∈ inc ∨ g ∈ exc) (hreq : g ≠ "required")
    (hn1 : g ∉ deps.map Dependency.name) (hn2 : g ∉ og.map Prod.fst) :
    ∃ n, (n ∈ inc ∨ n ∈ exc) ∧ n ≠ "required" ∧
      n ∉ deps.map Dependency.name ∧ n ∉ og.map Prod.fst ∧
      processDependencies inc exc deps (some og) =
        .error (.DependencyGroupNotFound n) := by
  have hnk : g ∉ allGroupKeys deps (some og) := by
    rw [mem_allGroupKeys]
    simp only [Option.getD_some]
    rintro (h | h)
    · exact hn1 h
    · exact hn2 h
  rcases processDependencies_unknown hg hreq hnk with ⟨n, hn, hreqn, hnkn, he⟩
  rw [mem_allGroupKeys] at hnkn
  simp only [Option.getD_some] at hnkn
  exact ⟨n, hn, hreqn, fun h => hnkn (Or.inl h), fun h => hnkn (Or.inr h), he⟩

theorem C4_unknown_group_error_witness :
    ∃ n, (n ∈ ["bogus"] ∨ n ∈ ([] : List String)) ∧ n ≠ "required" ∧
      n ∉ ([⟨"a", "==1"⟩] : List Dependency).map Dependency.name ∧
      n ∉ ([("dev", [⟨"b", "==1"⟩])] :
        List (String × List Dependency)).map Prod.fst ∧
      processDependencies ["bogus"] [] [⟨"a", "==1"⟩]
        (some [("dev", [⟨"b", "==1"⟩])]) =
        .error (.DependencyGroupNotFound n) :=
  C4_unknown_group_error ["bogus"] [] [⟨"a", "==1"⟩]
    [("dev", [⟨"b", "==1"⟩])] "bogus" (Or.inl (by decide)) (by decide)
    (by decide) (by decide)

/-- C4 counterexample: `"a"` is the bare name of a required dependency and
not a declared optional group, yet including it passes validation and even
emits the dependency — the claim's "names that are not declared groups
(such as the bare name of a required dependency) are rejected" is false. -/
theorem C4_required_name_accepted_counterexample :
    processDependencies ["a"] [] [⟨"a", "==1"⟩]
        (some [("dev", [⟨"b", "==1"⟩])]) = .ok [⟨"a", "==1"⟩] := by
  decide

/-- C5: the code raises `ProjectDependenciesNotFound` when EITHER structure
is missing (`dependencies.is_none() || optional_dependencies.is_none()`),
not only when both are: here the manifest has a required list but no
optional-groups structure, and the export still fails.  The downstream code
handles each missing structure gracefully (`unwrap_or(&[])`, an `Option`
parameter), so the both-missing reading of the spec is the evident intent
and the `||` is the slip. -/
theorem C5_one_structure_still_errors :
    exportDependenciesToFile ⟨["/ws"], []⟩ "/ws"
        ⟨some [⟨"a", "==1"⟩], none⟩ ⟨none, none, "req.txt"⟩ =
      (.error .ProjectDependenciesNotFound, ⟨["/ws"], []⟩) := by
  decide

/-- C6: the output path is resolved by using an already-absolute path
verbatim and joining a relative path under the workspace root; when the
resolved path's parent directory does not exist, the export fails with
`OutputFilePathDoesNotExist` naming that directory and the file system is
returned unchanged — no file is created or truncated. -/
theorem C6_output_path_validation (fs : FS) (root : String)
    (md : ExportMetadata) (opts : ExportOptions) (pd : String)
    (hp : parentDir (resolveOutputPath root opts.outputFile) = some pd)
    (hdir : dirExists fs pd = false) :
    exportDependenciesToFile fs root md opts =
      (.error (.OutputFilePathDoesNotExist pd), fs) ∧
    (startsWithSlash opts.outputFile = true →
      resolveOutputPath root opts.outputFile = opts.outputFile) ∧
    (startsWithSlash opts.outputFile = false →
      resolveOutputPath root opts.outputFile =
        root ++ "/" ++ opts.outputFile) := by
  refine ⟨?_, ?_, ?_⟩
  · simp only [exportDependenciesToFile, hp, hdir, Bool.false_eq_true,
      if_false]
  · intro h
    simp only [resolveOutputPath, h, if_true]
  · intro h
    simp only [resolveOutputPath, h, Bool.false_eq_true, if_false]

theorem C6_output_path_validation_witness :
    exportDependenciesToFile ⟨[], []⟩ "/ws"
        ⟨some [⟨"a", "==1"⟩], some []⟩ ⟨none, none, "req.txt"⟩ =
      (.error (.OutputFilePathDoesNotExist "/ws"), ⟨[], []⟩) ∧
    (startsWithSlash "req.txt" = true →
      resolveOutputPath "/ws" "req.txt" = "req.txt") ∧
    (startsWithSlash "req.txt" = false →
      resolveOutputPath "/ws" "req.txt" = "/ws" ++ "/" ++ "req.txt") :=
  C6_output_path_validation ⟨[], []⟩ "/ws" ⟨some [⟨"a", "==1"⟩], some []⟩
    ⟨none, none, "req.txt"⟩ "/ws" (by decide) (by decide)

/-- C10 (amended): provided every name mentioned in include or exclude
other than `"required"` is a declared key, an exclude set containing
`"required"` makes the filtering step fail with `DependencyGroupConflict`
whose payload contains `"required"`, because `"required"` is
unconditionally inserted into the include set before the conflict check.
(Without the proviso an unknown mentioned name is reported first; see the
counterexample.) -/
theorem C10_required_exclude_conflict (inc exc : List String)
    (deps : List Dependency) (og : List (String × List Dependency))
    (hknown : ∀ g ∈ inc ++ exc,
      g = "required" ∨ g ∈ allGroupKeys deps (some og))
    (hreq : "required" ∈ exc) (hni : "required" ∉ inc) :
    processDependencies inc exc deps (some og) =
      .error (.DependencyGroupConflict (conflictsOf inc exc)) ∧
    "required" ∈ conflictsOf inc exc := by
  have hmem : "required" ∈ conflictsOf inc exc :=
    mem_conflictsOf.mpr ⟨Or.inr rfl, hreq⟩
  refine ⟨?_, hmem⟩
  apply processDependencies_conflict (c := "required")
  · intro g hg
    exact hknown g (List.mem_append.mpr hg)
  · exact hmem

theorem C10_required_exclude_conflict_witness :
    processDependencies [] ["required"] [⟨"a", "==1"⟩]
        (some [("dev", [⟨"b", "==1"⟩])]) =
      .error (.DependencyGroupConflict (conflictsOf [] ["required"])) ∧
    "required" ∈ conflictsOf [] ["required"] :=
  C10_required_exclude_conflict [] ["required"] [⟨"a", "==1"⟩]
    [("dev", [⟨"b", "==1"⟩])] (by decide) (by decide) (by decide)

/-- C10 counterexample: exclude contains `"required"` and include is empty,
but the exclude set also mentions the unknown name `bogus`; the code fails
with `DependencyGroupNotFound "bogus"`, not `DependencyGroupConflict`, so
the claim is false as stated for every such export request. -/
theorem C10_unknown_preempts_counterexample :
    processDependencies [] ["required", "bogus"] [⟨"a", "==1"⟩]
        (some [("dev", [⟨"b", "==1"⟩])]) =
      .error (.DependencyGroupNotFound "bogus") ∧
    isConflictError (processDependencies [] ["required", "bogus"]
      [⟨"a", "==1"⟩] (some [("dev", [⟨"b", "==1"⟩])])) = false := by
  constructor
  · decide
  · decide

/-! ## Helper lemmas: the per-list reconciliation step -/

/-- Does the list declare a dependency of this name? -/
def hasDepName (L : List Dependency) (n : String) : Bool :=
  L.any (fun x => x.name == n)

/-- The effect of one installed package on one dependency list: if the name
is declared, remove it and append the pin; otherwise leave the list
alone. -/
def depStep (L : List Dependency) (d : Dependency) : List Dependency :=
  if hasDepName L d.name then
    L.filter (fun x => !(x.name == d.name)) ++ [d]
  else L

/-- The packages of `ds` whose name is declared in `L`. -/
def matchedOf (L ds : List Dependency) : List Dependency :=
  ds.filter (fun d => hasDepName L d.name)

theorem hasDepName_iff {L : List Dependency} {n : String} :
    hasDepName L n = true ↔ ∃ x ∈ L, x.name = n := by
  unfold hasDepName
  rw [List.any_eq_true]
  constructor
  · rintro ⟨x, hx, he⟩
    exact ⟨x, hx, beq_iff_eq.mp he⟩
  · rintro ⟨x, hx, he⟩
    exact ⟨x, hx, beq_iff_eq.mpr he⟩

theorem hasDepName_append {A B : List Dependency} {n : String} :
    hasDepName (A ++ B) n = (hasDepName A n || hasDepName B n) :=
  List.any_append

theorem hasDepName_filter_ne {L : List Dependency} {n dn : String}
    (h : n ≠ dn) :
    hasDepName (L.filter (fun x => !(x.name == dn))) n = hasDepName L n := by
  rcases hh : hasDepName L n with _ | _
  · rcases hf : hasDepName (L.filter (fun x => !(x.name == dn))) n with _ | _
    · rfl
    · rcases hasDepName_iff.mp hf with ⟨x, hx, hxn⟩
      have := hasDepName_iff.mpr ⟨x, (List.mem_filter.mp hx).1, hxn⟩
      rw [hh] at this
      exact this.symm
  · apply hasDepName_iff.mpr
    rcases hasDepName_iff.mp hh with ⟨x, hx, hxn⟩
    refine ⟨x, ?_, hxn⟩
    rw [List.mem_filter]
    refine ⟨hx, ?_⟩
    simp only [Bool.not_eq_true', beq_eq_false_iff_ne, ne_eq]
    rw [hxn]
    exact h

theorem matchedOf_names_subset {L ds : List Dependency} {n : String}
    (h : n ∈ (matchedOf L ds).map Dependency.name) :
    n ∈ ds.map Dependency.name ∧ hasDepName L n = true := by
  rcases List.mem_map.mp h with ⟨d, hd, rfl⟩
  rcases List.mem_filter.mp hd with ⟨hds, hh⟩
  exact ⟨List.mem_map.mpr ⟨d, hds, rfl⟩, hh⟩

/-- Closed form of folding `depStep` over a list of pins with pairwise
distinct names: the entries of matched names are removed from their
positions and the matched pins are appended at the end, in pin order. -/
theorem depFold_closed {ds : List Dependency}
    (h : (ds.map Dependency.name).Nodup) (L : List Dependency) :
    ds.foldl depStep L =
      L.filter (fun x => !((matchedOf L ds).map Dependency.name).contains x.name)
        ++ matchedOf L ds := by
  induction ds generalizing L with
  | nil =>
    simp [matchedOf]
  | cons d rest ih =>
    have hnames : d.name ∉ rest.map Dependency.name := by
      have h' : (d.name :: rest.map Dependency.name).Nodup := by simpa using h
      exact (List.nodup_cons.mp h').1
    have hrest : (rest.map Dependency.name).Nodup := by
      have h' : (d.name :: rest.map Dependency.name).Nodup := by simpa using h
      exact (List.nodup_cons.mp h').2
    simp only [List.foldl_cons]
    rcases hc : hasDepName L d.name with _ | _
    · -- the head package's name is not declared: nothing changes
      have hstep : depStep L d = L := by
        unfold depStep
        rw [hc]
        rfl
      have hm : matchedOf L (d :: rest) = matchedOf L rest := by
        unfold matchedOf
        rw [List.filter_cons]
        simp [hc]
      rw [hstep, ih hrest, hm]
    · -- the head package's name is declared: filter it out and append
      have hstep : depStep L d =
          L.filter (fun x => !(x.name == d.name)) ++ [d] := by
        unfold depStep
        rw [hc]
        rfl
      have hm : matchedOf L (d :: rest) = d :: matchedOf L rest := by
        unfold matchedOf
        rw [List.filter_cons]
        simp [hc]
      set L1 := L.filter (fun x => !(x.name == d.name)) ++ [d] with hL1
      have hmatch1 : matchedOf L1 rest = matchedOf L rest := by
        unfold matchedOf
        apply List.filter_congr
        intro q hq
        have hqne : q.name ≠ d.name := by
          intro he
          exact hnames (he ▸ List.mem_map.mpr ⟨q, hq, rfl⟩)
        rw [hL1, hasDepName_append, hasDepName_filter_ne hqne]
        have : hasDepName [d] q.name = false := by
          unfold hasDepName
          simp only [List.any_cons, List.any_nil, Bool.or_false]
          exact beq_eq_false_iff_ne.mpr (fun he => hqne he.symm)
        rw [this, Bool.or_false]
      have hdnm : d.name ∉ (matchedOf L rest).map Dependency.name := by
        intro hmem
        exact hnames (matchedOf_names_subset hmem).1
      rw [hstep, ih hrest, hmatch1, hm]
      rw [List.filter_append, List.filter_filter]
      have hsingle : ([d].filter
          (fun x => !((matchedOf L rest).map Dependency.name).contains x.name))
          = [d] := by
        simp only [List.filter_cons, List.filter_nil]
        rw [if_pos]
        simp only [Bool.not_eq_true']
        exact contains_eq_false_iff.mpr hdnm
      rw [hsingle]
      have hfeq : L.filter (fun a =>
          (!((matchedOf L rest).map Dependency.name).contains a.name) &&
            !(a.name == d.name)) =
          L.filter (fun x =>
            !((d :: matchedOf L rest).map Dependency.name).contains x.name) := by
        apply List.filter_congr
        intro x _
        simp only [List.map_cons, List.contains_cons, Bool.not_or]
        rw [Bool.and_comm]
      rw [hfeq, List.append_assoc]
      rfl

theorem hasDepName_filter_mono {L : List Dependency} {p : Dependency → Bool}
    {n : String} (h : hasDepName (L.filter p) n = true) :
    hasDepName L n = true := by
  rcases hasDepName_iff.mp h with ⟨x, hx, hxn⟩
  exact hasDepName_iff.mpr ⟨x, (List.mem_filter.mp hx).1, hxn⟩

theorem matchedOf_names_nodup {L ds : List Dependency}
    (h : (ds.map Dependency.name).Nodup) :
    ((matchedOf L ds).map Dependency.name).Nodup :=
  ((List.filter_sublist ds).map Dependency.name).nodup h

theorem matchedOf_congr {L1 L2 ds : List Dependency}
    (h : ∀ q ∈ ds, hasDepName L1 q.name = hasDepName L2 q.name) :
    matchedOf L1 ds = matchedOf L2 ds :=
  List.filter_congr h

theorem depFold_matched_stable {ds : List Dependency}
    (h : (ds.map Dependency.name).Nodup) (L : List Dependency) :
    matchedOf (ds.foldl depStep L) ds = matchedOf L ds := by
  rw [depFold_closed h]
  apply matchedOf_congr
  intro q hq
  rw [hasDepName_append]
  rcases hc : hasDepName L q.name with _ | _
  · have h1 : hasDepName (L.filter (fun x =>
        !((matchedOf L ds).map Dependency.name).contains x.name)) q.name
        = false := by
      rcases hf : hasDepName (L.filter (fun x =>
          !((matchedOf L ds).map Dependency.name).contains x.name)) q.name
          with _ | _
      · rfl
      · rw [hasDepName_filter_mono hf] at hc
        exact hc
    have h2 : hasDepName (matchedOf L ds) q.name = false := by
      rcases hf : hasDepName (matchedOf L ds) q.name with _ | _
      · rfl
      · rcases hasDepName_iff.mp hf with ⟨x, hx, hxn⟩
        rcases List.mem_filter.mp hx with ⟨_, hmatch⟩
        rw [hxn] at hmatch
        rw [hmatch] at hc
        exact hc
    rw [h1, h2]
    rfl
  · have hq' : q ∈ matchedOf L ds := List.mem_filter.mpr ⟨hq, hc⟩
    have h2 : hasDepName (matchedOf L ds) q.name = true :=
      hasDepName_iff.mpr ⟨q, hq', rfl⟩
    rw [h2, Bool.or_true]

theorem depFold_idem {ds : List Dependency}
    (h : (ds.map Dependency.name).Nodup) (L : List Dependency) :
    ds.foldl depStep (ds.foldl depStep L) = ds.foldl depStep L := by
  rw [depFold_closed h (ds.foldl depStep L), depFold_matched_stable h L]
  nth_rewrite 1 [depFold_closed h L]
  rw [List.filter_append, List.filter_filter]
  have h1 : L.filter (fun a =>
      (!((matchedOf L ds).map Dependency.name).contains a.name) &&
        !((matchedOf L ds).map Dependency.name).contains a.name) =
      L.filter (fun x =>
        !((matchedOf L ds).map Dependency.name).contains x.name) := by
    apply List.filter_congr
    intro x _
    rw [Bool.and_self]
  have h2 : (matchedOf L ds).filter (fun x =>
      !((matchedOf L ds).map Dependency.name).contains x.name) = [] := by
    rw [List.filter_eq_nil_iff]
    intro x hx
    simp only [Bool.not_eq_true', Bool.not_eq_false]
    exact contains_iff_mem.mpr (List.mem_map.mpr ⟨x, hx, rfl⟩)
  rw [h1, h2, List.append_nil, depFold_closed h L]

theorem filter_name_eq_of_nodup {l : List Dependency}
    (h : (l.map Dependency.name).Nodup) {d : Dependency} (hd : d ∈ l) :
    l.filter (fun x => x.name == d.name) = [d] := by
  induction l with
  | nil => cases hd
  | cons x xs ih =>
    have h' : (x.name :: xs.map Dependency.name).Nodup := by simpa using h
    rcases List.mem_cons.mp hd with rfl | hd'
    · rw [List.filter_cons, if_pos (by simp)]
      have : xs.filter (fun y => y.name == d.name) = [] := by
        rw [List.filter_eq_nil_iff]
        intro y hy hyn
        exact (List.nodup_cons.mp h').1
          (beq_iff_eq.mp hyn ▸ List.mem_map.mpr ⟨y, hy, rfl⟩)
      rw [this]
    · rw [List.filter_cons, if_neg, ih (List.nodup_cons.mp h').2 hd']
      intro hxn
      exact (List.nodup_cons.mp h').1
        (beq_iff_eq.mp hxn ▸ List.mem_map.mpr ⟨d, hd', rfl⟩)

theorem depFold_replaces {ds L : List Dependency}
    (h : (ds.map Dependency.name).Nodup) {d : Dependency} (hd : d ∈ ds)
    (hL : hasDepName L d.name = true) :
    (ds.foldl depStep L).filter (fun x => x.name == d.name) = [d] := by
  rw [depFold_closed h, List.filter_append]
  have hdP : d ∈ matchedOf L ds := List.mem_filter.mpr ⟨hd, hL⟩
  have hdM : d.name ∈ (matchedOf L ds).map Dependency.name :=
    List.mem_map.mpr ⟨d, hdP, rfl⟩
  have h1 : (L.filter (fun x =>
      !((matchedOf L ds).map Dependency.name).contains x.name)).filter
      (fun x => x.name == d.name) = [] := by
    rw [List.filter_eq_nil_iff]
    intro x hx hxn
    rcases List.mem_filter.mp hx with ⟨_, hpx⟩
    simp only [Bool.not_eq_true'] at hpx
    rw [beq_iff_eq.mp hxn, contains_eq_false_iff] at hpx
    exact hpx hdM
  have h2 : (matchedOf L ds).filter (fun x => x.name == d.name) = [d] :=
    filter_name_eq_of_nodup (matchedOf_names_nodup h) hdP
  rw [h1, h2, List.nil_append]

theorem depFold_frame {ds L : List Dependency}
    (h : (ds.map Dependency.name).Nodup) :
    (ds.foldl depStep L).filter
        (fun x => !(ds.any (fun q => q.name == x.name))) =
      L.filter (fun x => !(ds.any (fun q => q.name == x.name))) := by
  rw [depFold_closed h, List.filter_append]
  have h2 : (matchedOf L ds).filter
      (fun x => !(ds.any (fun q => q.name == x.name))) = [] := by
    rw [List.filter_eq_nil_iff]
    intro x hx hxn
    rcases List.mem_filter.mp hx with ⟨hxds, _⟩
    simp only [Bool.not_eq_true'] at hxn
    rw [List.any_eq_false] at hxn
    exact hxn x hxds (by simp)
  have h1 : (L.filter (fun x =>
      !((matchedOf L ds).map Dependency.name).contains x.name)).filter
      (fun x => !(ds.any (fun q => q.name == x.name))) =
      L.filter (fun x => !(ds.any (fun q => q.name == x.name))) := by
    rw [List.filter_filter]
    apply List.filter_congr
    intro x _
    rcases ha : ds.any (fun q => q.name == x.name) with _ | _
    · have : ((matchedOf L ds).map Dependency.name).contains x.name
          = false := by
        rw [contains_eq_false_iff]
        intro hmem
        rcases List.mem_map.mp hmem with ⟨y, hy, hyn⟩
        rcases List.mem_filter.mp hy with ⟨hyds, _⟩
        rw [List.any_eq_false] at ha
        exact ha y hyds (by rw [hyn]; exact beq_self_eq_true _)
      rw [this]
      rfl
    · rfl
  rw [h1, h2, List.append_nil]

/-! ## Helper lemmas: factoring the reconciliation over the manifest -/

theorem eq_of_mem_keys_nodup {l : List (String × List Dependency)}
    (h : (l.map Prod.fst).Nodup) {e e' : String × List Dependency}
    (he : e ∈ l) (he' : e' ∈ l) (hk : e.1 = e'.1) : e = e' := by
  induction l with
  | nil => cases he
  | cons x xs ih =>
    have h' : (x.1 :: xs.map Prod.fst).Nodup := by simpa using h
    rcases List.mem_cons.mp he with rfl | he2
    · rcases List.mem_cons.mp he' with rfl | he2'
      · rfl
      · exact absurd (hk ▸ List.mem_map.mpr ⟨e', he2', rfl⟩)
          (List.nodup_cons.mp h').1
    · rcases List.mem_cons.mp he' with rfl | he2'
      · exact absurd (hk ▸ List.mem_map.mpr ⟨e, he2, rfl⟩)
          (List.nodup_cons.mp h').1
      · exact ih (List.nodup_cons.mp h').2 he2 he2'

theorem addOptionalDependency_required {m : Metadata} {d : Dependency}
    {g : String} : (addOptionalDependency m d g).required = m.required := by
  unfold addOptionalDependency
  split <;> rfl

theorem groupStep_required {d : Dependency} {acc : Metadata} {g : String} :
    (groupStep d acc g).required = acc.required := by
  unfold groupStep
  split
  · rw [addOptionalDependency_required]
    rfl
  · rfl

theorem groupFold_required {gs : List String} {m : Metadata}
    {d : Dependency} : (gs.foldl (groupStep d) m).required = m.required := by
  induction gs generalizing m with
  | nil => rfl
  | cons g rest ih =>
    simp only [List.foldl_cons]
    rw [ih, groupStep_required]

theorem keys_entry_update {l : List (String × List Dependency)}
    {g : String} {f : List Dependency → List Dependency} :
    (l.map (fun e => if e.1 = g then (e.1, f e.2) else e)).map Prod.fst =
      l.map Prod.fst := by
  rw [List.map_map]
  apply List.map_congr_left
  intro e _
  by_cases h : e.1 = g <;> simp [h]

theorem groupStep_optional {m : Metadata} {d : Dependency} {g : String}
    (hkeys : (m.optional.map Prod.fst).Nodup) :
    (groupStep d m g).optional =
      m.optional.map (fun e => if e.1 = g then (e.1, depStep e.2 d) else e) := by
  rcases hf : m.optional.find? (fun e => e.1 == g) with _ | e0
  · -- no entry with key g: the step is the identity
    have hcont : containsOptionalDependency m d g = false := by
      unfold containsOptionalDependency
      rw [hf]
    have hnone : ∀ e ∈ m.optional, e.1 ≠ g := by
      intro e he
      have := List.find?_eq_none.mp hf e he
      simpa using this
    unfold groupStep
    rw [hcont]
    simp only [Bool.false_eq_true, if_false]
    have : m.optional.map (fun e => if e.1 = g then (e.1, depStep e.2 d) else e)
        = m.optional.map (fun e => e) := by
      apply List.map_congr_left
      intro e he
      rw [if_neg (hnone e he)]
    rw [this, List.map_id']
  · have he0mem : e0 ∈ m.optional := List.mem_of_find?_eq_some hf
    have he0key : e0.1 = g := by
      have := List.find?_some hf
      simpa using this
    have hcont : containsOptionalDependency m d g =
        hasDepName e0.2 d.name := by
      unfold containsOptionalDependency
      rw [hf]
      rfl
    have huniq : ∀ e ∈ m.optional, e.1 = g → e = e0 := by
      intro e he hk
      exact eq_of_mem_keys_nodup hkeys he he0mem (hk.trans he0key.symm)
    rcases hc : hasDepName e0.2 d.name with _ | _
    · -- name not declared in the group: the step is the identity
      unfold groupStep
      rw [hcont, hc]
      simp only [Bool.false_eq_true, if_false]
      have : m.optional.map
          (fun e => if e.1 = g then (e.1, depStep e.2 d) else e)
          = m.optional.map (fun e => e) := by
        apply List.map_congr_left
        intro e he
        by_cases hk : e.1 = g
        · rw [if_pos hk, huniq e he hk]
          have : depStep e0.2 d = e0.2 := by
            unfold depStep
            rw [hc]
            rfl
          rw [this]
        · rw [if_neg hk]
      rw [this, List.map_id']
    · -- name declared: remove it from the group and append the pin
      unfold groupStep
      rw [hcont, hc, if_pos rfl]
      unfold addOptionalDependency removeOptionalDependency
      have hany : ((m.optional.map (fun e => if e.1 == g then
          (e.1, e.2.filter (fun x => !(x.name == d.name))) else e)).any
          (fun e => e.1 == g)) = true := by
        apply List.any_eq_true.mpr
        refine ⟨(e0.1, e0.2.filter (fun x => !(x.name == d.name))), ?_, ?_⟩
        · apply List.mem_map.mpr
          refine ⟨e0, he0mem, ?_⟩
          rw [if_pos (beq_iff_eq.mpr he0key)]
        · exact beq_iff_eq.mpr he0key
      rw [if_pos hany]
      simp only [List.map_map]
      apply List.map_congr_left
      intro e he
      by_cases hk : e.1 = g
      · have he0 : e = e0 := huniq e he hk
        subst he0
        simp [Function.comp, hk, depStep, hc]
      · simp [Function.comp, hk]

theorem keys_entry_update_pred {l : List (String × List Dependency)}
    {P : String → Prop} [DecidablePred P]
    {f : List Dependency → List Dependency} :
    (l.map (fun e => if P e.1 then (e.1, f e.2) else e)).map Prod.fst =
      l.map Prod.fst := by
  rw [List.map_map]
  apply List.map_congr_left
  intro e _
  by_cases h : P e.1 <;> simp [h]

theorem groupFold_optional {gs : List String} (hgs : gs.Nodup) {m : Metadata}
    (hkeys : (m.optional.map Prod.fst).Nodup) {d : Dependency} :
    (gs.foldl (groupStep d) m).optional =
      m.optional.map (fun e =>
        if e.1 ∈ gs then (e.1, depStep e.2 d) else e) := by
  induction gs generalizing m with
  | nil =>
    simp only [List.foldl_nil, List.not_mem_nil, if_false]
    simp
  | cons g rest ih =>
    simp only [List.foldl_cons]
    have hg_rest : g ∉ rest := (List.nodup_cons.mp hgs).1
    have hrest : rest.Nodup := (List.nodup_cons.mp hgs).2
    have hstep := groupStep_optional (m := m) (d := d) (g := g) hkeys
    have hkeys1 : ((groupStep d m g).optional.map Prod.fst).Nodup := by
      rw [hstep, keys_entry_update (f := fun l => depStep l d)]
      exact hkeys
    rw [ih hrest hkeys1, hstep, List.map_map]
    apply List.map_congr_left
    intro e _
    by_cases hk : e.1 = g
    · simp [Function.comp, hk, hg_rest]
    · by_cases hk2 : e.1 ∈ rest
      · simp [Function.comp, hk, hk2]
      · simp [Function.comp, hk, hk2]

theorem updatePkgStep_closed {groups : List String} (hgs : groups.Nodup)
    {m : Metadata} (hkeys : (m.optional.map Prod.fst).Nodup) {p : Package} :
    updatePkgStep groups m p =
      ⟨depStep m.required p.pin,
       m.optional.map (fun e =>
         if e.1 ∈ groups then (e.1, depStep e.2 p.pin) else e)⟩ := by
  have hm1req : (if containsDependency m p.pin then
      addDependency (removeDependency m p.pin) p.pin else m).required =
      depStep m.required p.pin := by
    rcases h : containsDependency m p.pin with _ | _
    · have h' : hasDepName m.required (Package.pin p).name = false := h
      simp [h, depStep, h']
    · have h' : hasDepName m.required (Package.pin p).name = true := h
      simp [h, depStep, h', addDependency, removeDependency]
  have hm1opt : (if containsDependency m p.pin then
      addDependency (removeDependency m p.pin) p.pin else m).optional =
      m.optional := by
    rcases h : containsDependency m p.pin with _ | _
    · simp [h]
    · simp [h, addDependency, removeDependency]
  show (groups.foldl (groupStep p.pin)
    (if containsDependency m p.pin then
      addDependency (removeDependency m p.pin) p.pin else m)) = _
  set m1 := if containsDependency m p.pin then
    addDependency (removeDependency m p.pin) p.pin else m with hm1
  have hkeys1 : (m1.optional.map Prod.fst).Nodup := by
    rw [hm1opt]
    exact hkeys
  have h1 : (groups.foldl (groupStep p.pin) m1).required =
      depStep m.required p.pin := by
    rw [groupFold_required, hm1req]
  have h2 : (groups.foldl (groupStep p.pin) m1).optional =
      m.optional.map (fun e =>
        if e.1 ∈ groups then (e.1, depStep e.2 p.pin) else e) := by
    rw [groupFold_optional hgs hkeys1, hm1opt]
  rw [show (groups.foldl (groupStep p.pin) m1) =
    (⟨(groups.foldl (groupStep p.pin) m1).required,
      (groups.foldl (groupStep p.pin) m1).optional⟩ : Metadata) from rfl,
    h1, h2]

theorem foldl_updatePkgStep_closed {ps : List Package} :
    ∀ (m : Metadata) (groups : List String),
    groups = m.optional.map Prod.fst → (m.optional.map Prod.fst).Nodup →
    ps.foldl (updatePkgStep groups) m =
      ⟨(ps.map Package.pin).foldl depStep m.required,
       m.optional.map (fun e =>
         (e.1, (ps.map Package.pin).foldl depStep e.2))⟩ := by
  induction ps with
  | nil =>
    intro m groups _ _
    simp only [List.foldl_nil, List.map_nil]
    simp
  | cons p rest ih =>
    intro m groups hg hkeys
    simp only [List.foldl_cons]
    have hgs : groups.Nodup := hg ▸ hkeys
    rw [updatePkgStep_closed hgs hkeys]
    have hkeys1 : (((⟨depStep m.required p.pin,
        m.optional.map (fun e =>
          if e.1 ∈ groups then (e.1, depStep e.2 p.pin) else e)⟩ :
        Metadata)).optional.map Prod.fst).Nodup := by
      simp only
      rw [keys_entry_update_pred (P := fun k => k ∈ groups)
        (f := fun l => depStep l p.pin)]
      exact hkeys
    have hg1 : groups = ((⟨depStep m.required p.pin,
        m.optional.map (fun e =>
          if e.1 ∈ groups then (e.1, depStep e.2 p.pin) else e)⟩ :
        Metadata)).optional.map Prod.fst := by
      simp only
      rw [keys_entry_update_pred (P := fun k => k ∈ groups)
        (f := fun l => depStep l p.pin)]
      exact hg
    rw [ih _ groups hg1 hkeys1]
    simp only [List.map_cons, List.foldl_cons]
    congr 1
    rw [List.map_map]
    apply List.map_congr_left
    intro e he
    have hmem : e.1 ∈ groups := hg ▸ List.mem_map.mpr ⟨e, he, rfl⟩
    simp [Function.comp, hmem]

/-- Closed form of the reconciliation phase: the required list and every
optional group's list are reconciled independently, by folding the
installed pins through `depStep`. -/
theorem updateReconcile_closed {m : Metadata} {ps : List Package}
    (hkeys : (m.optional.map Prod.fst).Nodup) :
    updateReconcile m ps =
      ⟨(ps.map Package.pin).foldl depStep m.required,
       m.optional.map (fun e =>
         (e.1, (ps.map Package.pin).foldl depStep e.2))⟩ :=
  foldl_updatePkgStep_closed m (m.optional.map Prod.fst) rfl hkeys

theorem keys_map_pair {l : List (String × List Dependency)}
    {f : List Dependency → List Dependency} :
    (l.map (fun e => (e.1, f e.2))).map Prod.fst = l.map Prod.fst := by
  rw [List.map_map]
  rfl

theorem pin_names_nodup {ps : List Package}
    (hps : (ps.map Package.name).Nodup) :
    ((ps.map Package.pin).map Dependency.name).Nodup := by
  rw [List.map_map]
  have : (Dependency.name ∘ Package.pin) = Package.name := by
    funext q
    rfl
  rw [this]
  exact hps

theorem any_pin_name {ps : List Package} (x : Dependency) :
    ((ps.map Package.pin).any (fun q => q.name == x.name)) =
      ps.any (fun q => q.name == x.name) := by
  induction ps with
  | nil => rfl
  | cons p rest ih =>
    simp only [List.map_cons, List.any_cons]
    rw [ih]
    rfl

/-! ## Claims about the reconciliation and lint operations -/

/-- C7: for every installed package, in the required list and in every
optional group: if a dependency of that name is declared there, the
reconciliation leaves exactly the pinned entry under that name (old entry
removed, new entry recording the installed version, group membership
preserved — the group keys are unchanged); every dependency whose name is
not among the installed packages is left unchanged (the sequence of such
entries is preserved verbatim). -/
theorem C7_reconcile_replace_and_frame (m : Metadata) (ps : List Package)
    (hps : (ps.map Package.name).Nodup)
    (hkeys : (m.optional.map Prod.fst).Nodup) :
    ((updateReconcile m ps).optional.map Prod.fst = m.optional.map Prod.fst) ∧
    (∀ p ∈ ps, hasDepName m.required p.name = true →
      (updateReconcile m ps).required.filter
        (fun x => x.name == p.name) = [Package.pin p]) ∧
    ((updateReconcile m ps).required.filter
        (fun x => !(ps.any (fun q => q.name == x.name))) =
      m.required.filter (fun x => !(ps.any (fun q => q.name == x.name)))) ∧
    (∀ e ∈ m.optional, ∃ l,
      (e.1, l) ∈ (updateReconcile m ps).optional ∧
      (∀ p ∈ ps, hasDepName e.2 p.name = true →
        l.filter (fun x => x.name == p.name) = [Package.pin p]) ∧
      l.filter (fun x => !(ps.any (fun q => q.name == x.name))) =
        e.2.filter (fun x => !(ps.any (fun q => q.name == x.name)))) := by
  have hpins := pin_names_nodup hps
  have hpred : (fun x : Dependency =>
      !((ps.map Package.pin).any (fun q => q.name == x.name))) =
      (fun x : Dependency => !(ps.any (fun q => q.name == x.name))) := by
    funext x
    rw [any_pin_name]
  refine ⟨?_, ?_, ?_, ?_⟩
  · rw [updateReconcile_closed hkeys]
    show (m.optional.map (fun e =>
      (e.1, (ps.map Package.pin).foldl depStep e.2))).map Prod.fst =
      m.optional.map Prod.fst
    exact keys_map_pair (f := fun l => (ps.map Package.pin).foldl depStep l)
  · intro p hp hm
    rw [updateReconcile_closed hkeys]
    exact depFold_replaces hpins (List.mem_map.mpr ⟨p, hp, rfl⟩) hm
  · rw [updateReconcile_closed hkeys]
    rw [← hpred]
    exact depFold_frame hpins
  · intro e he
    refine ⟨(ps.map Package.pin).foldl depStep e.2, ?_, ?_, ?_⟩
    · rw [updateReconcile_closed hkeys]
      exact List.mem_map.mpr ⟨e, he, rfl⟩
    · intro p hp hm
      exact depFold_replaces hpins (List.mem_map.mpr ⟨p, hp, rfl⟩) hm
    · rw [← hpred]
      exact depFold_frame hpins

theorem C7_reconcile_replace_and_frame_witness :
    ((updateReconcile ⟨[⟨"a", "==1.0"⟩], [("dev", [⟨"b", "==1.0"⟩])]⟩
        [⟨"a", "2.0"⟩]).optional.map Prod.fst =
      ([("dev", [⟨"b", "==1.0"⟩])] :
        List (String × List Dependency)).map Prod.fst) ∧
    (∀ p ∈ [(⟨"a", "2.0"⟩ : Package)],
      hasDepName [⟨"a", "==1.0"⟩] p.name = true →
      (updateReconcile ⟨[⟨"a", "==1.0"⟩], [("dev", [⟨"b", "==1.0"⟩])]⟩
        [⟨"a", "2.0"⟩]).required.filter
        (fun x => x.name == p.name) = [Package.pin p]) ∧
    ((updateReconcile ⟨[⟨"a", "==1.0"⟩], [("dev", [⟨"b", "==1.0"⟩])]⟩
        [⟨"a", "2.0"⟩]).required.filter
        (fun x => !([(⟨"a", "2.0"⟩ : Package)].any
          (fun q => q.name == x.name))) =
      ([⟨"a", "==1.0"⟩] : List Dependency).filter
        (fun x => !([(⟨"a", "2.0"⟩ : Package)].any
          (fun q => q.name == x.name)))) ∧
    (∀ e ∈ ([("dev", [⟨"b", "==1.0"⟩])] : List (String × List Dependency)),
      ∃ l, (e.1, l) ∈ (updateReconcile
        ⟨[⟨"a", "==1.0"⟩], [("dev", [⟨"b", "==1.0"⟩])]⟩
        [⟨"a", "2.0"⟩]).optional ∧
      (∀ p ∈ [(⟨"a", "2.0"⟩ : Package)], hasDepName e.2 p.name = true →
        l.filter (fun x => x.name == p.name) = [Package.pin p]) ∧
      l.filter (fun x => !([(⟨"a", "2.0"⟩ : Package)].any
          (fun q => q.name == x.name))) =
        e.2.filter (fun x => !([(⟨"a", "2.0"⟩ : Package)].any
          (fun q => q.name == x.name)))) :=
  C7_reconcile_replace_and_frame
    ⟨[⟨"a", "==1.0"⟩], [("dev", [⟨"b", "==1.0"⟩])]⟩ [⟨"a", "2.0"⟩]
    (by decide) (by decide)

/-- C8: the reconciled manifest is persisted only when it differs by value
from the originally loaded one, and reconciliation is idempotent: running
it a second time on the persisted result (with the same installed set)
changes nothing, so the second run performs zero writes. -/
theorem C8_reconcile_idempotent_write (m : Metadata) (ps : List Package)
    (hps : (ps.map Package.name).Nodup)
    (hkeys : (m.optional.map Prod.fst).Nodup) :
    (updateWrites m ps = true ↔ updateReconcile m ps ≠ m) ∧
    updateWrites (updateReconcile m ps) ps = false := by
  have hpins := pin_names_nodup hps
  constructor
  · simp [updateWrites]
  · have hkeys' : ((updateReconcile m ps).optional.map Prod.fst).Nodup := by
      rw [updateReconcile_closed hkeys,
        keys_map_pair (f := fun l => (ps.map Package.pin).foldl depStep l)]
      exact hkeys
    have hidem : updateReconcile (updateReconcile m ps) ps =
        updateReconcile m ps := by
      rw [updateReconcile_closed hkeys', updateReconcile_closed hkeys]
      simp only [List.map_map]
      congr 1
      · exact depFold_idem hpins m.required
      · apply List.map_congr_left
        intro e _
        simp only [Function.comp]
        rw [depFold_idem hpins]
    simp [updateWrites, hidem]

theorem C8_reconcile_idempotent_write_witness :
    (updateWrites ⟨[⟨"a", "==1.0"⟩], [("dev", [⟨"b", "==1.0"⟩])]⟩
        [⟨"a", "2.0"⟩] = true ↔
      updateReconcile ⟨[⟨"a", "==1.0"⟩], [("dev", [⟨"b", "==1.0"⟩])]⟩
        [⟨"a", "2.0"⟩] ≠
        ⟨[⟨"a", "==1.0"⟩], [("dev", [⟨"b", "==1.0"⟩])]⟩) ∧
    updateWrites (updateReconcile
      ⟨[⟨"a", "==1.0"⟩], [("dev", [⟨"b", "==1.0"⟩])]⟩ [⟨"a", "2.0"⟩])
      [⟨"a", "2.0"⟩] = false :=
  C8_reconcile_idempotent_write
    ⟨[⟨"a", "==1.0"⟩], [("dev", [⟨"b", "==1.0"⟩])]⟩ [⟨"a", "2.0"⟩]
    (by decide) (by decide)

theorem find?_append_of_none {l1 l2 : List (String × List Dependency)}
    {p : String × List Dependency → Bool} (h : l1.find? p = none) :
    (l1 ++ l2).find? p = l2.find? p := by
  induction l1 with
  | nil => rfl
  | cons x xs ih =>
    have hx : p x = false := by
      have := List.find?_eq_none.mp h x (List.mem_cons_self x xs)
      simpa using this
    have hxs : xs.find? p = none := by
      rw [List.find?_eq_none]
      intro e he
      exact List.find?_eq_none.mp h e (List.mem_cons_of_mem x he)
    rw [List.cons_append, List.find?_cons_of_neg _ (by simp [hx]), ih hxs]

theorem find?_entry_update {l : List (String × List Dependency)} {g : String}
    {f : List Dependency → List Dependency} :
    (l.map (fun e => if e.1 == g then (e.1, f e.2) else e)).find?
        (fun e => e.1 == g) =
      (l.find? (fun e => e.1 == g)).map (fun e => (e.1, f e.2)) := by
  induction l with
  | nil => rfl
  | cons x xs ih =>
    simp only [List.map_cons]
    rcases hx : (x.1 == g) with _ | _
    · rw [if_neg (by simp [hx]),
        List.find?_cons_of_neg (p := fun (e : String × List Dependency) => e.1 == g) _ (by simp [hx]),
        List.find?_cons_of_neg (p := fun (e : String × List Dependency) => e.1 == g) _ (by simp [hx]), ih]
    · rw [if_pos (by simp [hx]),
        List.find?_cons_of_pos (p := fun (e : String × List Dependency) => e.1 == g) _ (by simp [hx]),
        List.find?_cons_of_pos (p := fun (e : String × List Dependency) => e.1 == g) _ hx]
      rfl

theorem devGroup_addOptional {m : Metadata} {d : Dependency} :
    devGroup (addOptionalDependency m d "dev") = devGroup m ++ [d] := by
  rcases hf : m.optional.find? (fun e => e.1 == "dev") with _ | e0
  · have hany : m.optional.any (fun e => e.1 == "dev") = false := by
      rw [List.any_eq_false]
      intro e he
      have := List.find?_eq_none.mp hf e he
      simpa using this
    unfold addOptionalDependency
    rw [hany]
    simp only [Bool.false_eq_true, if_false]
    unfold devGroup
    simp only
    rw [find?_append_of_none hf, hf]
    rfl
  · have hany : m.optional.any (fun e => e.1 == "dev") = true := by
      apply List.any_eq_true.mpr
      exact ⟨e0, List.mem_of_find?_eq_some hf,
        List.find?_some (p := fun (e : String × List Dependency) => e.1 == "dev") hf⟩
    unfold addOptionalDependency
    rw [hany]
    simp only [if_true]
    unfold devGroup
    simp only
    rw [find?_entry_update (f := fun l => l ++ [d]), hf]
    rfl

theorem devGroup_foldl_add {l : List Package} {m : Metadata} :
    devGroup (l.foldl (fun acc q => addOptionalDependency acc q.pin "dev") m)
      = devGroup m ++ l.map Package.pin := by
  induction l generalizing m with
  | nil => simp
  | cons q rest ih =>
    simp only [List.foldl_cons, List.map_cons]
    rw [ih, devGroup_addOptional, List.append_assoc]
    rfl

/-- C9: a helper package installed by the lint operation (`ruff`, plus
`mypy` when type checking is requested) that is not declared under any
group of the manifest is appended as a new entry (the installed pin) under
the default group `"dev"`, and this mutation makes the compare-then-write
rule perform a write. -/
theorem C9_lint_dev_group (m : Metadata) (it : Bool)
    (installed : List Package) (d : Dependency) (p : Package)
    (hd : d ∈ lintHelperDeps it)
    (hnot : containsDependencyAny m d = false)
    (hp : p ∈ installed) (hname : p.name = d.name) :
    Package.pin p ∈ devGroup (lintUpdateMetadata m it installed) ∧
    lintWrites m it installed = true := by
  set newNames := ((lintHelperDeps it).filter
      (fun x => !(containsDependencyAny m x))).map Dependency.name with hnn
  have hdmem : d.name ∈ newNames := by
    rw [hnn]
    exact List.mem_map.mpr
      ⟨d, List.mem_filter.mpr ⟨hd, by rw [hnot]; rfl⟩, rfl⟩
  have hne : newNames.isEmpty = false := by
    rw [List.isEmpty_eq_false]
    intro h
    rw [h] at hdmem
    exact List.not_mem_nil _ hdmem
  have hunfold : lintUpdateMetadata m it installed =
      (installed.filter (fun q => newNames.contains q.name)).foldl
        (fun acc q => addOptionalDependency acc q.pin "dev") m := by
    simp only [lintUpdateMetadata, ← hnn, hne, Bool.false_eq_true, if_false]
  have hpf : p ∈ installed.filter (fun q => newNames.contains q.name) :=
    List.mem_filter.mpr
      ⟨hp, by rw [hname]; exact contains_iff_mem.mpr hdmem⟩
  have hdev : devGroup (lintUpdateMetadata m it installed) =
      devGroup m ++ (installed.filter
        (fun q => newNames.contains q.name)).map Package.pin := by
    rw [hunfold, devGroup_foldl_add]
  constructor
  · rw [hdev]
    exact List.mem_append.mpr (Or.inr (List.mem_map.mpr ⟨p, hpf, rfl⟩))
  · have hlen : (devGroup (lintUpdateMetadata m it installed)).length ≠
        (devGroup m).length := by
      rw [hdev, List.length_append]
      have hpos : 0 < ((installed.filter
          (fun q => newNames.contains q.name)).map Package.pin).length :=
        List.length_pos.mpr
          (List.ne_nil_of_mem (List.mem_map.mpr ⟨p, hpf, rfl⟩))
      omega
    simp only [lintWrites, ne_eq, decide_eq_true_eq]
    intro heq
    rw [heq] at hlen
    exact hlen rfl

theorem C9_lint_dev_group_witness :
    Package.pin ⟨"ruff", "0.1"⟩ ∈
      devGroup (lintUpdateMetadata ⟨[], []⟩ false [⟨"ruff", "0.1"⟩]) ∧
    lintWrites ⟨[], []⟩ false [⟨"ruff", "0.1"⟩] = true :=
  C9_lint_dev_group ⟨[], []⟩ false [⟨"ruff", "0.1"⟩] ruffDep
    ⟨"ruff", "0.1"⟩ (by decide) (by decide) (by decide) (by decide)

end Huak
